import Mathlib

/-!
Verification development for the PARM assembler: a shallow embedding of the
assembler pipeline (parser, layout and label resolution, binary encoder,
logisim hex serializer) together with theorems about the claims of the
specification.  Definitions are translated from the Rust sources
(`instructions.rs`, `logic.rs`, `parser.rs`, `lib.rs`, `utils.rs`); the
binary flatten orders of the encoder are modelled from the specification
(see the doc comment of `Args.toBits`).
-/

/-- A bit string, most significant bit first (the `BitVec<u8, Msb0>` of the
Rust sources). -/
abbrev Bits := List Bool

/-- Helper to transcribe the `bitvec![...]` literals of the source. -/
def bvLit (l : List Nat) : Bits := l.map (fun n => n == 1)

/-- `Reg` from `instructions.rs`: registers with their numeric codes
(0..7 for R0..R7, 14 for PC, 15 for SP, exactly as in the `#[repr(u8)]`
enum of the source). -/
inductive Reg
  | R0 | R1 | R2 | R3 | R4 | R5 | R6 | R7 | PC | SP
deriving DecidableEq, Repr

/-- The numeric code of a register (the `#[repr(u8)]` discriminant). -/
def Reg.code : Reg → Nat
  | .R0 => 0
  | .R1 => 1
  | .R2 => 2
  | .R3 => 3
  | .R4 => 4
  | .R5 => 5
  | .R6 => 6
  | .R7 => 7
  | .PC => 14
  | .SP => 15

/-- `TryFrom<u8> for Reg`: scans the fixed register list and returns the
register whose code equals the value, `none` otherwise. -/
def Reg.tryFrom (value : Nat) : Option Reg :=
  [Reg.R0, Reg.R1, Reg.R2, Reg.R3, Reg.R4, Reg.R5, Reg.R6, Reg.R7,
   Reg.PC, Reg.SP].find? (fun r => r.code == value)

/-- `ImmediateError` from `instructions.rs`. -/
inductive ImmediateError
  | TooLarge (v : Int)
deriving DecidableEq, Repr

/-- `Immediate<const N: u8, const WIDE: bool>`: an unsigned immediate,
holding the (already divided when WIDE) stored value. -/
structure Immediate (N : Nat) (WIDE : Bool) where
  val : Nat
deriving DecidableEq, Repr

/-- `Immediate::upper_bound`: `1 << (N + if WIDE {2} else {0})`.
Note the source compares with `<=` against this bound, so the bound itself
is accepted. -/
def Immediate.upper_bound (N : Nat) (WIDE : Bool) : Nat :=
  2 ^ (N + (if WIDE then 2 else 0))

/-- `Immediate::new` from `instructions.rs`: accepts
`lower_bound <= val <= upper_bound` (both inclusive in the source) and
stores `val / 4` when WIDE, `val` otherwise. -/
def Immediate.new (N : Nat) (WIDE : Bool) (val : Nat) :
    Except ImmediateError (Immediate N WIDE) :=
  if val ≤ Immediate.upper_bound N WIDE then
    .ok ⟨if WIDE then val / 4 else val⟩
  else
    .error (.TooLarge (val : Int))

/-- `SignedImmediate<const N: u8, const WIDE: bool>`. -/
structure SignedImmediate (N : Nat) (WIDE : Bool) where
  val : Int
deriving DecidableEq, Repr

/-- `SignedImmediate::lower_bound`: `-(1 << (N + offset - 1))`. -/
def SignedImmediate.lower_bound (N : Nat) (WIDE : Bool) : Int :=
  -(2 ^ (N + (if WIDE then 2 else 0) - 1))

/-- `SignedImmediate::upper_bound`: `(1 << (N + offset - 1)) - 1`. -/
def SignedImmediate.upper_bound (N : Nat) (WIDE : Bool) : Int :=
  2 ^ (N + (if WIDE then 2 else 0) - 1) - 1

/-- `SignedImmediate::new` from `instructions.rs`.  `Int.div` is Rust's
truncating `/` (never reached with `WIDE = true` in this program). -/
def SignedImmediate.new (N : Nat) (WIDE : Bool) (val : Int) :
    Except ImmediateError (SignedImmediate N WIDE) :=
  if SignedImmediate.lower_bound N WIDE ≤ val ∧
     val ≤ SignedImmediate.upper_bound N WIDE then
    .ok ⟨if WIDE then Int.tdiv val 4 else val⟩
  else
    .error (.TooLarge val)

/-- `Instr` from `instructions.rs`: the supported mnemonics. -/
inductive Instr
  | Lsls | Lsrs | Asrs | Adds | Subs | Adds2 | Subs2 | Adds3 | Subs3 | Movs
  | Ands | Eors | Lsls2 | Lsrs2 | Asrs2 | Adcs | Sbcs | Rors | Tst | Rsbs
  | Cmp | Cmp2 | Cmn | Orrs | Muls | Bics | Mvns
  | Str | Ldr | Ldr2 | Ldr3
  | AddSp | SubSp
  | Beq | Bne | Bcs | Bcc | Bmi | Bpl | Bvs | Bvc | Bhi | Bls | Bge | Blt
  | Bgt | Ble | Bal | B
deriving DecidableEq, Repr

/-- `Instr::bits` from `instructions.rs`: the opcode bit patterns.
`Ldr3` reuses the `Movs` pattern (`Self::bits(&Movs)` in the source,
commented "implemented as movs"). -/
def Instr.bits : Instr → Bits
  | .Lsls => bvLit [0, 0, 0, 0, 0]
  | .Lsrs => bvLit [0, 0, 0, 0, 1]
  | .Asrs => bvLit [0, 0, 0, 1, 0]
  | .Adds => bvLit [0, 0, 0, 1, 1, 0, 0]
  | .Adds2 => bvLit [0, 0, 0, 1, 1, 1, 0]
  | .Adds3 => bvLit [0, 0, 1, 1, 0]
  | .Subs => bvLit [0, 0, 0, 1, 1, 0, 1]
  | .Subs2 => bvLit [0, 0, 0, 1, 1, 1, 1]
  | .Subs3 => bvLit [0, 0, 1, 1, 1]
  | .Movs => bvLit [0, 0, 1, 0, 0]
  | .Ands => bvLit [0, 1, 0, 0, 0, 0, 0, 0, 0, 0]
  | .Eors => bvLit [0, 1, 0, 0, 0, 0, 0, 0, 0, 1]
  | .Lsls2 => bvLit [0, 1, 0, 0, 0, 0, 0, 0, 1, 0]
  | .Lsrs2 => bvLit [0, 1, 0, 0, 0, 0, 0, 0, 1, 1]
  | .Asrs2 => bvLit [0, 1, 0, 0, 0, 0, 0, 1, 0, 0]
  | .Adcs => bvLit [0, 1, 0, 0, 0, 0, 0, 1, 0, 1]
  | .Sbcs => bvLit [0, 1, 0, 0, 0, 0, 0, 1, 1, 0]
  | .Rors => bvLit [0, 1, 0, 0, 0, 0, 0, 1, 1, 1]
  | .Tst => bvLit [0, 1, 0, 0, 0, 0, 1, 0, 0, 0]
  | .Rsbs => bvLit [0, 1, 0, 0, 0, 0, 1, 0, 0, 1]
  | .Cmp => bvLit [0, 1, 0, 0, 0, 0, 1, 0, 1, 0]
  | .Cmp2 => bvLit [0, 0, 1, 0, 1]
  | .Cmn => bvLit [0, 1, 0, 0, 0, 0, 1, 0, 1, 1]
  | .Orrs => bvLit [0, 1, 0, 0, 0, 0, 1, 1, 0, 0]
  | .Muls => bvLit [0, 1, 0, 0, 0, 0, 1, 1, 0, 1]
  | .Bics => bvLit [0, 1, 0, 0, 0, 0, 1, 1, 1, 0]
  | .Mvns => bvLit [0, 1, 0, 0, 0, 0, 1, 1, 1, 1]
  | .Str => bvLit [1, 0, 0, 1, 0]
  | .Ldr => bvLit [1, 0, 0, 1, 1]
  | .Ldr2 => bvLit [0, 1, 1, 0, 1]
  | .Ldr3 => bvLit [0, 0, 1, 0, 0]
  | .AddSp => bvLit [1, 0, 1, 1, 0, 0, 0, 0, 0]
  | .SubSp => bvLit [1, 0, 1, 1, 0, 0, 0, 0, 1]
  | .Beq => bvLit [1, 1, 0, 1, 0, 0, 0, 0]
  | .Bne => bvLit [1, 1, 0, 1, 0, 0, 0, 1]
  | .Bcs => bvLit [1, 1, 0, 1, 0, 0, 1, 0]
  | .Bcc => bvLit [1, 1, 0, 1, 0, 0, 1, 1]
  | .Bmi => bvLit [1, 1, 0, 1, 0, 1, 0, 0]
  | .Bpl => bvLit [1, 1, 0, 1, 0, 1, 0, 1]
  | .Bvs => bvLit [1, 1, 0, 1, 0, 1, 1, 0]
  | .Bvc => bvLit [1, 1, 0, 1, 0, 1, 1, 1]
  | .Bhi => bvLit [1, 1, 0, 1, 1, 0, 0, 0]
  | .Bls => bvLit [1, 1, 0, 1, 1, 0, 0, 1]
  | .Bge => bvLit [1, 1, 0, 1, 1, 0, 1, 0]
  | .Blt => bvLit [1, 1, 0, 1, 1, 0, 1, 1]
  | .Bgt => bvLit [1, 1, 0, 1, 1, 1, 0, 0]
  | .Ble => bvLit [1, 1, 0, 1, 1, 1, 0, 1]
  | .Bal => bvLit [1, 1, 0, 1, 1, 1, 1, 0]
  | .B => bvLit [1, 1, 1, 0, 0]

/-- `Args` from `instructions.rs`: the instruction argument families. -/
inductive Args
  | Immediate11 (imm : SignedImmediate 11 false)
  | Immediate7W (imm : Immediate 7 true)
  | Immediate8S (imm : SignedImmediate 8 false)
  | Label (name : String)
  | RdImm8 (rd : Reg) (imm : Immediate 8 false)
  | RdRmImm5 (rd rm : Reg) (imm : Immediate 5 false)
  | RdRnImm0 (rd rn : Reg)
  | RdRnImm3 (rd rn : Reg) (imm : Immediate 3 false)
  | RdRnRm (rd rn rm : Reg)
  | RtSpImm8W (rt : Reg) (imm : Immediate 8 true)
  | RtRnImm5 (rt rn : Reg) (imm : Immediate 5 false)
  | RtLabel (rt : Reg) (name : String)
  | TwoRegs (r1 r2 : Reg)
deriving DecidableEq, Repr

/-- `FullInstr` from `instructions.rs`. -/
structure FullInstr where
  instr : Instr
  args : Args
deriving DecidableEq, Repr

/-- `LabelLookup` (a `HashMap<String, usize>` in the source); modelled as an
association list where a later `insert` shadows an earlier one. -/
abbrev LabelLookup := List (String × Nat)

/-- Lookup in a `LabelLookup` (most recent insertion first). -/
def lookupL : LabelLookup → String → Option Nat
  | [], _ => none
  | (k, v) :: t, name => if k == name then some v else lookupL t name

/-- `HashMap::insert`: the new binding shadows any previous one. -/
def insertL (m : LabelLookup) (k : String) (v : Nat) : LabelLookup :=
  (k, v) :: m

/-- `CompleteError` from `instructions.rs`. -/
inductive CompleteError
  | LabelNotFound (name : String)
  | JumpTooFar (label : String) (distance : Int)
  | InvalidArg
deriving DecidableEq, Repr

/-- Rust's `usize as i16` cast (truncate to 16 bits, reinterpret signed). -/
def i16ofNat (n : Nat) : Int :=
  if n % 65536 < 32768 then ((n % 65536 : Nat) : Int)
  else ((n % 65536 : Nat) : Int) - 65536

/-- Wrap an integer into i16 range (Rust release-mode overflow semantics of
the `i16` subtractions in `complete_label_imm8`/`imm11`). -/
def i16wrap (z : Int) : Int := (z + 32768) % 65536 - 32768

/-- `complete_label_imm8` from `instructions.rs`: conditional jumps encode
the distance `label - cur_line - 3` as an 8-bit signed immediate.  On range
overflow the source builds `JumpTooFar` from `label.to_string()` where
`label` is the numeric address parameter. -/
def complete_label_imm8 (label cur_line : Nat) :
    Except CompleteError (SignedImmediate 8 false) :=
  let offset := i16wrap (i16ofNat label - i16ofNat cur_line - 3)
  match SignedImmediate.new 8 false offset with
  | .ok imm => .ok imm
  | .error _ => .error (.JumpTooFar (Nat.repr label) offset)

/-- `complete_label_imm11` from `instructions.rs`: unconditional jumps
encode the distance as an 11-bit signed immediate. -/
def complete_label_imm11 (label cur_line : Nat) :
    Except CompleteError (SignedImmediate 11 false) :=
  let offset := i16wrap (i16ofNat label - i16ofNat cur_line - 3)
  match SignedImmediate.new 11 false offset with
  | .ok imm => .ok imm
  | .error _ => .error (.JumpTooFar (Nat.repr label) offset)

/-- `FullInstr::complete` from `instructions.rs`: replaces a `Label`
argument via the ROM label map (11-bit immediate for `B`, 8-bit otherwise)
and rewrites `Ldr3 rt, label` via the RAM label map into `RdImm8`
(`addr as u16` is `addr % 65536`; the error distance is `addr as i32`). -/
def FullInstr.complete (self : FullInstr) (cur_line : Nat)
    (rom_labels ram_labels : LabelLookup) : Except CompleteError FullInstr :=
  let step1 : Except CompleteError FullInstr :=
    match self.args with
    | .Label label =>
      match lookupL rom_labels label with
      | some addr =>
        match self.instr with
        | .B =>
          match complete_label_imm11 addr cur_line with
          | .ok imm => .ok { self with args := .Immediate11 imm }
          | .error e => .error e
        | _ =>
          match complete_label_imm8 addr cur_line with
          | .ok imm => .ok { self with args := .Immediate8S imm }
          | .error e => .error e
      | none => .error (.LabelNotFound label)
    | _ => .ok self
  match step1 with
  | .error e => .error e
  | .ok copy =>
    match self.args with
    | .RtLabel rt label =>
      match self.instr with
      | .Ldr3 =>
        match lookupL ram_labels label with
        | some addr =>
          match Immediate.new 8 false (addr % 65536) with
          | .ok imm => .ok { copy with args := .RdImm8 rt imm }
          | .error _ => .error (.JumpTooFar label (addr : Int))
        | none => .error (.LabelNotFound label)
      | _ => .ok copy
    | _ => .ok copy

/-! ## Binary encoder (emitter) -/

/-- `bitvec`'s `resize(w); store_be(v)`: the `w`-bit big-endian encoding of
`v` (truncating to the low `w` bits). -/
def storeBe (w : Nat) (v : Nat) : Bits :=
  (List.range w).map (fun j => v.testBit (w - 1 - j))

/-- `store_be` of a signed value: the `w`-bit two's complement encoding. -/
def intStoreBe (w : Nat) (v : Int) : Bits :=
  storeBe w (v % ((2 : Int) ^ w)).toNat

/-- `ToBinary for Reg` (`emitter.rs`): 3 bits, big-endian, of the numeric
code. -/
def Reg.toBinary (r : Reg) : Bits := storeBe 3 r.code

/-- `ToBinary for Immediate<N, WIDE>` (`emitter.rs`): `N` bits big-endian of
the stored value. -/
def Immediate.toBinary {N : Nat} {W : Bool} (i : Immediate N W) : Bits :=
  storeBe N i.val

/-- `ToBinary for SignedImmediate<N, WIDE>` (`emitter.rs`): `N` bits
big-endian, two's complement. -/
def SignedImmediate.toBinary {N : Nat} {W : Bool} (i : SignedImmediate N W) :
    Bits := intStoreBe N i.val

/-- Modelled from the spec: the operand flatten orders of
`FullInstr::to_binary`.  The `emitter.rs` present in the sources is from an
older revision of the crate (it pattern-matches a tuple-struct `Args` and
lacks arms for several mnemonics), so the operand orders are taken from
spec sections 4.2 and 4.5 — `RdRmImm5` emits Imm5, Rm, Rd; `RdRnRm` emits
Rm, Rn, Rd; `TwoRegs(r1, r2)` emits r2, r1; `RdRnImm3` emits Imm3, Rn, Rd;
`RdImm8` emits Rd, Imm8; `RtSpImm8W` emits Rt, Imm8; `RtRnImm5` emits
Imm5, Rn, Rt; `RdRnImm0` emits Rn, Rd; bare immediates emit just the
immediate — which agree with the orders of the old emitter and with the
committed test vectors of `logic.rs`.  Unresolved `Label`/`RtLabel`
arguments make the emitter panic; they are mapped to the empty bit string
(no resolved program reaches them). -/
def Args.toBits : Args → Bits
  | .Immediate11 imm => imm.toBinary
  | .Immediate7W imm => imm.toBinary
  | .Immediate8S imm => imm.toBinary
  | .Label _ => []
  | .RdImm8 rd imm => rd.toBinary ++ imm.toBinary
  | .RdRmImm5 rd rm imm => imm.toBinary ++ rm.toBinary ++ rd.toBinary
  | .RdRnImm0 rd rn => rn.toBinary ++ rd.toBinary
  | .RdRnImm3 rd rn imm => imm.toBinary ++ rn.toBinary ++ rd.toBinary
  | .RdRnRm rd rn rm => rm.toBinary ++ rn.toBinary ++ rd.toBinary
  | .RtSpImm8W rt imm => rt.toBinary ++ imm.toBinary
  | .RtRnImm5 rt rn imm => imm.toBinary ++ rn.toBinary ++ rt.toBinary
  | .RtLabel _ _ => []
  | .TwoRegs r1 r2 => r2.toBinary ++ r1.toBinary

/-- `ToBinary for FullInstr`: the opcode bits followed by the operand bits
in the family flatten order. -/
def FullInstr.to_binary (i : FullInstr) : Bits :=
  i.instr.bits ++ i.args.toBits

/-! ## Parsed lines and layout (`parser.rs` line type, `logic.rs`) -/

/-- `ParsedLine` from `parser.rs`.  The `Long` variant appears in
`logic.rs` (`collapse_long`); the parser in the sources never produces it
(a `.long` line falls into the ignored-directive branch). -/
inductive ParsedLine
  | Instr (i : FullInstr)
  | Label (name : String)
  | String (s : String)
  | Long (name : String)
  | None
deriving DecidableEq, Repr

/-- UTF-8 encoding of one character (the byte view Rust strings expose). -/
def charUtf8Bytes (c : Char) : List Nat :=
  let n := c.toNat
  if n < 128 then [n]
  else if n < 2048 then [192 + n / 64, 128 + n % 64]
  else if n < 65536 then [224 + n / 4096, 128 + n / 64 % 64, 128 + n % 64]
  else [240 + n / 262144, 128 + n / 4096 % 64, 128 + n / 64 % 64, 128 + n % 64]

/-- The UTF-8 bytes of a string (Rust `str::bytes`). -/
def strBytes (s : String) : List Nat := (s.data.map charUtf8Bytes).flatten

/-- Rust `String::len`: the UTF-8 byte length. -/
def strLen (s : String) : Nat := (strBytes s).length

/-- Modelled from the spec: `ToBinary for String` (missing from the old
`emitter.rs` in the sources): each byte of the string becomes a 16-bit
big-endian code unit with the byte in the low 8 bits (spec section 4.5,
matching the `use_ram` test vector of `logic.rs`). -/
def stringToBinary (s : String) : Bits :=
  ((strBytes s).map (storeBe 16)).flatten

/-- The ROM-label pass of `calculate_labels` (`logic.rs`): enumerate the
lines, keep the labels with their line index `i`, and subtract the number
`label_i` of labels seen before, so a label maps to the ROM index of the
next instruction. -/
def romLabelPairs : List ParsedLine → Nat → Nat → List (String × Nat)
  | [], _, _ => []
  | .Label l :: t, i, label_i => (l, i - label_i) :: romLabelPairs t (i + 1) (label_i + 1)
  | _ :: t, i, label_i => romLabelPairs t (i + 1) label_i

/-- Collect ROM label pairs into the map (later pairs shadow earlier ones,
as with `HashMap::collect`). -/
def calculate_rom_labels (instrs : List ParsedLine) : LabelLookup :=
  (romLabelPairs instrs 0 0).foldl (fun m p => insertL m p.1 p.2) []

/-- The RAM-label pass of `calculate_labels` (`logic.rs`): each label maps
to the cumulative byte offset of the strings before it; lines that are
neither labels nor strings are unreachable there and left without effect. -/
def calculate_ram_labels : List ParsedLine → Nat → LabelLookup → LabelLookup
  | [], _, m => m
  | .Label l :: t, prev_string_end, m =>
      calculate_ram_labels t prev_string_end (insertL m l prev_string_end)
  | .String s :: t, prev_string_end, m =>
      calculate_ram_labels t (prev_string_end + strLen s) m
  | _ :: t, prev_string_end, m => calculate_ram_labels t prev_string_end m

/-- `extract_ram` from `logic.rs`, with the accumulated `last_labels` as
second argument and the `panic!("String without label: ...")` modelled as
an error value.  Returns the RAM stream and the lines that remain. -/
def extract_ram_go : List ParsedLine → List String →
    Except String (List ParsedLine × List ParsedLine)
  | [], pending => .ok ([], pending.map ParsedLine.Label)
  | .Label l :: t, pending => extract_ram_go t (pending ++ [l])
  | .String s :: t, pending =>
      if pending.isEmpty then .error ("String without label: " ++ s)
      else
        match extract_ram_go t [] with
        | .ok (ram, kept) =>
            .ok (pending.map ParsedLine.Label ++ ParsedLine.String s :: ram, kept)
        | .error e => .error e
  | x :: t, pending =>
      match extract_ram_go t [] with
      | .ok (ram, kept) => .ok (ram, pending.map ParsedLine.Label ++ x :: kept)
      | .error e => .error e

/-- `extract_ram` entry point (empty `last_labels`). -/
def extract_ram (instrs : List ParsedLine) :
    Except String (List ParsedLine × List ParsedLine) :=
  extract_ram_go instrs []

/-- The rewriting step of `collapse_long`: replace `Ldr3 rt, lbl` by
`Ldr3 rt, long`. -/
def replaceLdr3Label (lbl long : String) : ParsedLine → ParsedLine
  | .Instr ⟨.Ldr3, .RtLabel rt l⟩ =>
      if l == lbl then .Instr ⟨.Ldr3, .RtLabel rt long⟩ else .Instr ⟨.Ldr3, .RtLabel rt l⟩
  | p => p

/-- One iteration of the `collapse_long` loop at index `i`. -/
def collapse_step (st : List ParsedLine × List Nat) (i : Nat) :
    List ParsedLine × List Nat :=
  match st.1.get? i, st.1.get? (i - 1) with
  | some (.Long long), some (.Label lbl) =>
      (st.1.map (replaceLdr3Label lbl long), st.2 ++ [i])
  | _, _ => st

/-- Drop the elements whose position (starting at `i`) is in `idxs`. -/
def removeIdxsGo (i : Nat) : List ParsedLine → List Nat → List ParsedLine
  | [], _ => []
  | x :: t, idxs =>
    if idxs.contains i then removeIdxsGo (i + 1) t idxs
    else x :: removeIdxsGo (i + 1) t idxs

/-- Drop the elements whose position is in `idxs` (the effect of the
reverse-order `Vec::remove` loop). -/
def removeIdxs (l : List ParsedLine) (idxs : List Nat) : List ParsedLine :=
  removeIdxsGo 0 l idxs

/-- `collapse_long` from `logic.rs`: for each `.long` line directly after a
label, redirect `Ldr3` references from the label to the `.long` target and
drop the `.long` line. -/
def collapse_long (instrs : List ParsedLine) : List ParsedLine :=
  let st := (List.range' 1 (instrs.length - 1)).foldl collapse_step (instrs, [])
  removeIdxs st.1 st.2

/-- The instruction lines of a stream (`filter_map` on `Instr`). -/
def onlyInstrs (lines : List ParsedLine) : List FullInstr :=
  lines.filterMap (fun l => match l with | .Instr i => some i | _ => none)

/-- The string lines of a stream (`filter_map` on `String`). -/
def ramStrings (lines : List ParsedLine) : List String :=
  lines.filterMap (fun l => match l with | .String s => some s | _ => none)

/-- The `enumerate().map(complete).collect::<Result<_, _>>()` of
`process_lines`: complete each instruction at its ROM index, failing at the
first error. -/
def completeAll (rom ram : LabelLookup) : Nat → List FullInstr →
    Except CompleteError (List FullInstr)
  | _, [] => .ok []
  | k, i :: t =>
    match i.complete k rom ram with
    | .ok j =>
      match completeAll rom ram (k + 1) t with
      | .ok r => .ok (j :: r)
      | .error e => .error e
    | .error e => .error e

/-- `process_lines` from `logic.rs`. -/
def process_lines (instrs : List ParsedLine) (ram : List ParsedLine) :
    Except CompleteError (List FullInstr × List String) :=
  let instrs' := collapse_long instrs
  let rom_labels := calculate_rom_labels instrs'
  let ram_labels := calculate_ram_labels ram 0 []
  match completeAll rom_labels ram_labels 0 (onlyInstrs instrs') with
  | .ok l => .ok (l, ramStrings ram)
  | .error e => .error e

/-- `Program` from `logic.rs`. -/
structure Program where
  instrs : Bits
  ram : Bits
deriving DecidableEq, Repr

/-- A failure of `make_program`: a completion error, or a panic (the
`panic!` of `extract_ram` modelled as a value). -/
inductive ProgramFailure
  | completeErr (e : CompleteError)
  | panicked (msg : String)
deriving DecidableEq, Repr

/-- `make_program` from `logic.rs`. -/
def make_program (instrs : List ParsedLine) : Except ProgramFailure Program :=
  match extract_ram instrs with
  | .error msg => .error (.panicked msg)
  | .ok (ram, kept) =>
    match process_lines kept ram with
    | .error e => .error (.completeErr e)
    | .ok (rom, ramS) =>
      .ok ⟨rom.foldl (fun acc i => acc ++ i.to_binary) [],
           ramS.foldl (fun acc s => acc ++ stringToBinary s) []⟩

/-! ## Parser (`parser.rs`), preprocessing (`utils.rs` escapes, regex pass) -/

/-- Space or tab (nom's `space0`). -/
def isSpaceTab (c : Char) : Bool := c == ' ' || c == '\t'

/-- nom's `tag_no_case` (ASCII case-insensitive literal); returns the rest
of the input on success. -/
def tagNoCase : List Char → List Char → Option (List Char)
  | [], input => some input
  | _ :: _, [] => none
  | c :: t, x :: xs => if x.toLower == c.toLower then tagNoCase t xs else none

/-- nom's `char` parser. -/
def charP (c : Char) : List Char → Option (List Char)
  | [] => none
  | x :: xs => if x == c then some xs else none

/-- nom's `digit1`: one or more ASCII digits. -/
def digit1 (input : List Char) : Option (List Char × List Char) :=
  let d := input.takeWhile Char.isDigit
  if d.isEmpty then none else some (d, input.dropWhile Char.isDigit)

/-- Decimal value of a digit string. -/
def digitsVal (s : List Char) : Nat :=
  s.foldl (fun a c => 10 * a + (c.toNat - 48)) 0

/-- Observable behaviour of `str::parse::<u8>` on the digit strings
produced by `digit1`: the value if it fits in `u8`. -/
def parseU8 (s : List Char) : Option Nat :=
  if s.isEmpty then none
  else if digitsVal s ≤ 255 then some (digitsVal s) else none

/-- Observable behaviour of `str::parse::<u16>` on digit strings (empty
input is a parse failure). -/
def parseU16 (s : List Char) : Option Nat :=
  if s.isEmpty then none
  else if digitsVal s ≤ 65535 then some (digitsVal s) else none

/-- `Parseable for Reg` (`parser.rs`): `r` followed by a `u8` that is a
valid register code, or the spellings `sp` / `pc`, case-insensitive. -/
def parseReg (input : List Char) : Option (Reg × List Char) :=
  let standard : Option (Reg × List Char) :=
    match tagNoCase ['r'] input with
    | some r1 =>
      match digit1 r1 with
      | some (ds, r2) =>
        match parseU8 ds with
        | some v =>
          match Reg.tryFrom v with
          | some r => some (r, r2)
          | none => none
        | none => none
      | none => none
    | none => none
  standard.orElse fun _ =>
    ((tagNoCase ['s', 'p'] input).map (fun r => (Reg.SP, r))).orElse fun _ =>
      (tagNoCase ['p', 'c'] input).map (fun r => (Reg.PC, r))

/-- `Parseable for Immediate` (`parser.rs`): `#` then `take_while`
numeric characters, `str::parse::<u16>`, then the range-checked
constructor. -/
def parseImm (N : Nat) (W : Bool) (input : List Char) :
    Option (Immediate N W × List Char) := do
  let r1 ← charP '#' input
  let ds := r1.takeWhile Char.isDigit
  let r2 := r1.dropWhile Char.isDigit
  let v ← parseU16 ds
  match Immediate.new N W v with
  | .ok imm => some (imm, r2)
  | .error _ => none

/-- `parse_separator`: an optional comma then spaces (always succeeds). -/
def parseSeparator (input : List Char) : List Char :=
  (match input with
   | ',' :: t => t
   | _ => input).dropWhile isSpaceTab

/-- The type of the argument parsers of the instruction table. -/
abbrev ArgP := List Char → Option (Args × List Char)

/-- `parse_rd_rm_imm5`. -/
def parseRdRmImm5 : ArgP := fun input => do
  let (rd, r1) ← parseReg (parseSeparator input)
  let (rm, r2) ← parseReg (parseSeparator r1)
  let (imm, r3) ← parseImm 5 false (parseSeparator r2)
  pure (Args.RdRmImm5 rd rm imm, r3)

/-- `parse_rd_rn_rm`. -/
def parseRdRnRm : ArgP := fun input => do
  let (rd, r1) ← parseReg (parseSeparator input)
  let (rn, r2) ← parseReg (parseSeparator r1)
  let (rm, r3) ← parseReg (parseSeparator r2)
  pure (Args.RdRnRm rd rn rm, r3)

/-- `parse_rd_rn_imm3`. -/
def parseRdRnImm3 : ArgP := fun input => do
  let (rd, r1) ← parseReg (parseSeparator input)
  let (rn, r2) ← parseReg (parseSeparator r1)
  let (imm, r3) ← parseImm 3 false (parseSeparator r2)
  pure (Args.RdRnImm3 rd rn imm, r3)

/-- `parse_rd_imm8`. -/
def parseRdImm8 : ArgP := fun input => do
  let (rd, r1) ← parseReg (parseSeparator input)
  let (imm, r2) ← parseImm 8 false (parseSeparator r1)
  pure (Args.RdImm8 rd imm, r2)

/-- `parse_sp_imm7`. -/
def parseSpImm7 : ArgP := fun input => do
  let r1 ← tagNoCase ['s', 'p'] (parseSeparator input)
  let (imm, r2) ← parseImm 7 true (parseSeparator r1)
  pure (Args.Immediate7W imm, r2)

/-- `parse_two_regs`. -/
def parseTwoRegs : ArgP := fun input => do
  let (a, r1) ← parseReg (parseSeparator input)
  let (b, r2) ← parseReg (parseSeparator r1)
  pure (Args.TwoRegs a b, r2)

/-- `parse_rdm_rn_rdm`: three registers with the first and third equal. -/
def parseRdmRnRdm : ArgP := fun input => do
  let (a, r1) ← parseReg (parseSeparator input)
  let (b, r2) ← parseReg (parseSeparator r1)
  let (a', r3) ← parseReg (parseSeparator r2)
  if a = a' then pure (Args.TwoRegs a b, r3) else none

/-- `parse_rdrn_imm0`: two registers and an 8-bit immediate that must be
zero. -/
def parseRdRnImm0 : ArgP := fun input => do
  let (rd, r1) ← parseReg (parseSeparator input)
  let (rn, r2) ← parseReg (parseSeparator r1)
  let (imm, r3) ← parseImm 8 false (parseSeparator r2)
  if imm.val = 0 then pure (Args.RdRnImm0 rd rn, r3) else none

/-- `parse_rt_sp_imm8`: `rt, [sp]` or `rt, [sp, #imm]` (missing immediate
defaults to 0). -/
def parseRtSpImm8 : ArgP := fun input => do
  let (rt, r1) ← parseReg (parseSeparator input)
  let r2 ← tagNoCase ['[', 's', 'p'] (parseSeparator r1)
  let (imm, r3) :=
    match parseImm 8 true (parseSeparator r2) with
    | some (i, rest) => (i, rest)
    | none => ((⟨0⟩ : Immediate 8 true), r2)
  let r4 ← charP ']' r3
  pure (Args.RtSpImm8W rt imm, r4)

/-- `parse_rt_rn_imm5`: `rt, [rn]` or `rt, [rn, #imm]`. -/
def parseRtRnImm5 : ArgP := fun input => do
  let (rt, r1) ← parseReg (parseSeparator input)
  let r2 ← charP '[' (parseSeparator r1)
  let (rn, r3) ← parseReg (parseSeparator r2)
  let (imm, r4) :=
    match parseImm 5 false (parseSeparator r3) with
    | some (i, rest) => (i, rest)
    | none => ((⟨0⟩ : Immediate 5 false), r3)
  let r5 ← charP ']' r4
  pure (Args.RtRnImm5 rt rn imm, r5)

/-- `parse_label`: an optional leading dot (stripped) then alphanumeric or
underscore characters (possibly none). -/
def parseLabelName (input : List Char) : List Char × List Char :=
  let r := match input with
    | '.' :: t => t
    | _ => input
  (r.takeWhile (fun c => c.isAlphanum || c == '_'),
   r.dropWhile (fun c => c.isAlphanum || c == '_'))

/-- `parse_label_definition`: a label name followed by `:`. -/
def parseLabelDef (input : List Char) : Option (String × List Char) := do
  let (name, r1) := parseLabelName input
  let r2 ← charP ':' r1
  pure (String.mk name, r2)

/-- `parse_label_args`: a separator then a label name. -/
def parseLabelArgs : ArgP := fun input =>
  let (name, r1) := parseLabelName (parseSeparator input)
  some (Args.Label (String.mk name), r1)

/-- `parse_rt_label`: a register then a label name. -/
def parseRtLabel : ArgP := fun input => do
  let (rt, r1) ← parseReg (parseSeparator input)
  let (name, r2) := parseLabelName (parseSeparator r1)
  pure (Args.RtLabel rt (String.mk name), r2)

/-- `Instr::text_instruction` from `instructions.rs`: the mnemonic
spellings of each instruction. -/
def textInstruction : Instr → List String
  | .Lsls => ["lsls"]
  | .Lsrs => ["lsrs"]
  | .Asrs => ["asrs"]
  | .Adds => ["adds"]
  | .Subs => ["subs"]
  | .Adds2 => ["adds", "add"]
  | .Subs2 => ["subs", "sub"]
  | .Adds3 => ["adds"]
  | .Subs3 => ["subs"]
  | .Movs => ["movs"]
  | .Str => ["str"]
  | .Ldr => ["ldr"]
  | .Ldr2 => ["ldr", "ldrb"]
  | .Ldr3 => ["ldr"]
  | .AddSp => ["add"]
  | .SubSp => ["sub"]
  | .Ands => ["ands"]
  | .Eors => ["eors"]
  | .Lsls2 => ["lsls"]
  | .Lsrs2 => ["lsrs"]
  | .Asrs2 => ["asrs"]
  | .Adcs => ["adcs"]
  | .Sbcs => ["sbcs"]
  | .Rors => ["rors"]
  | .Tst => ["tst"]
  | .Rsbs => ["rsbs"]
  | .Cmp => ["cmp"]
  | .Cmp2 => ["cmp"]
  | .Cmn => ["cmn"]
  | .Orrs => ["orrs"]
  | .Muls => ["muls"]
  | .Bics => ["bics"]
  | .Mvns => ["mvns"]
  | .B => ["b"]
  | .Beq => ["beq"]
  | .Bne => ["bne"]
  | .Bcs => ["bcs", "bhs"]
  | .Bcc => ["bcc", "blo"]
  | .Bmi => ["bmi"]
  | .Bpl => ["bpl"]
  | .Bvs => ["bvs"]
  | .Bvc => ["bvc"]
  | .Bhi => ["bhi"]
  | .Bls => ["bls"]
  | .Bge => ["bge"]
  | .Blt => ["blt"]
  | .Bgt => ["bgt"]
  | .Ble => ["ble"]
  | .Bal => ["bal"]

/-- The `INSTRUCTIONS` table of `parser.rs`, in source order. -/
def INSTRUCTIONS : List (Instr × ArgP) :=
  [(.Lsls, parseRdRmImm5),
   (.Lsrs, parseRdRmImm5),
   (.Asrs, parseRdRmImm5),
   (.Adds, parseRdRnRm),
   (.Adds2, parseRdRnImm3),
   (.Adds3, parseRdImm8),
   (.Subs, parseRdRnRm),
   (.Subs2, parseRdRnImm3),
   (.Subs3, parseRdImm8),
   (.Movs, parseRdImm8),
   (.Rsbs, parseRdRnImm0),
   (.Ands, parseTwoRegs),
   (.Eors, parseTwoRegs),
   (.Lsls2, parseTwoRegs),
   (.Lsrs2, parseTwoRegs),
   (.Asrs2, parseTwoRegs),
   (.Adcs, parseTwoRegs),
   (.Sbcs, parseTwoRegs),
   (.Rors, parseTwoRegs),
   (.Tst, parseTwoRegs),
   (.Rsbs, parseTwoRegs),
   (.Cmp, parseTwoRegs),
   (.Cmp2, parseRdImm8),
   (.Cmn, parseTwoRegs),
   (.Orrs, parseTwoRegs),
   (.Muls, parseRdmRnRdm),
   (.Bics, parseTwoRegs),
   (.Mvns, parseTwoRegs),
   (.Str, parseRtSpImm8),
   (.Ldr, parseRtSpImm8),
   (.Ldr2, parseRtRnImm5),
   (.Ldr3, parseRtLabel),
   (.AddSp, parseSpImm7),
   (.SubSp, parseSpImm7),
   (.Beq, parseLabelArgs),
   (.Bne, parseLabelArgs),
   (.Bcs, parseLabelArgs),
   (.Bcc, parseLabelArgs),
   (.Bmi, parseLabelArgs),
   (.Bpl, parseLabelArgs),
   (.Bvs, parseLabelArgs),
   (.Bvc, parseLabelArgs),
   (.Bhi, parseLabelArgs),
   (.Bls, parseLabelArgs),
   (.Bge, parseLabelArgs),
   (.Blt, parseLabelArgs),
   (.Bgt, parseLabelArgs),
   (.Ble, parseLabelArgs),
   (.Bal, parseLabelArgs),
   (.B, parseLabelArgs)]

/-- Try the flattened (spelling, instruction, argument-parser) alternatives
in order: the manual `alt` fold of `generate_instructions_parser`. -/
def tryInstrs : List (List Char × Instr × ArgP) → List Char →
    Option (FullInstr × List Char)
  | [], _ => none
  | (txt, ins, argP) :: rest, input =>
    match tagNoCase txt input with
    | some r1 =>
      match argP r1 with
      | some (args, r2) => some (⟨ins, args⟩, r2)
      | none => tryInstrs rest input
    | none => tryInstrs rest input

/-- The flattened alternative list (each instruction paired with each of
its spellings, in table order). -/
def flatEntries : List (List Char × Instr × ArgP) :=
  (INSTRUCTIONS.map
    (fun e => (textInstruction e.1).map (fun t => (t.data, e.1, e.2)))).flatten

/-- `parse_instr` from `parser.rs`. -/
def parse_instr (input : List Char) : Option (FullInstr × List Char) :=
  tryInstrs flatEntries input

/-- `unescape_string` from `utils.rs`: `replace("\\n", "\n")` then
`replace("\\\\", "\\")`, left to right, non-overlapping (fuelled; each
step consumes at least one character, so the length is enough fuel). -/
def replaceEscF (p2 rep : Char) : Nat → List Char → List Char
  | 0, l => l
  | _ + 1, [] => []
  | fuel + 1, x :: rest =>
    if x == '\\' then
      match rest with
      | c :: t =>
        if c == p2 then rep :: replaceEscF p2 rep fuel t
        else '\\' :: replaceEscF p2 rep fuel rest
      | [] => ['\\']
    else x :: replaceEscF p2 rep fuel rest

/-- `unescape_string` entry point. -/
def unescapeString (s : List Char) : List Char :=
  let a := replaceEscF 'n' '\n' s.length s
  replaceEscF '\\' '\\' a.length a

/-- `parse_string`: `.string`/`.asciz`, anything up to the opening quote,
the contents up to the closing quote, unescaped. -/
def parseStringLit (input : List Char) : Option (String × List Char) := do
  let r1 ← (tagNoCase ".string".data input).orElse
             (fun _ => tagNoCase ".asciz".data input)
  let r2 := r1.dropWhile (fun c => !(c == '"'))
  let r3 ← charP '"' r2
  let content := r3.takeWhile (fun c => !(c == '"'))
  let r4 := r3.dropWhile (fun c => !(c == '"'))
  let r5 ← charP '"' r4
  pure (String.mk (unescapeString content), r5)

/-- `parse_comment`: spaces, `@`, then anything up to the newline. -/
def parseComment (input : List Char) : Option (List Char) := do
  let r1 ← charP '@' (input.dropWhile isSpaceTab)
  pure (r1.dropWhile (fun c => !(c == '\n')))

/-- nom's `line_ending`: `\n` or `\r\n`. -/
def lineEnding : List Char → Option (List Char)
  | '\n' :: t => some t
  | '\r' :: '\n' :: t => some t
  | _ => none

/-- `parse_end_of_line`: spaces then a line ending. -/
def parseEndOfLine (input : List Char) : Option (List Char) :=
  lineEnding (input.dropWhile isSpaceTab)

/-- `parse_push`: a `push` line, dropped (requires a newline terminator). -/
def parsePush (input : List Char) : Option (List Char) := do
  let r1 ← tagNoCase "push".data input
  lineEnding (r1.dropWhile (fun c => !(c == '\n')))

/-- nom's `multispace1`: one or more whitespace characters. -/
def multispace1 (input : List Char) : Option (List Char) :=
  match input with
  | c :: _ => if c == ' ' || c == '\t' || c == '\r' || c == '\n'
              then some (input.dropWhile
                (fun c => c == ' ' || c == '\t' || c == '\r' || c == '\n'))
              else none
  | [] => none

/-- `parse_line` from `parser.rs`: the alternatives in source order, then
an optional end of line. -/
def parse_line (input : List Char) : Option (ParsedLine × List Char) :=
  if input.isEmpty then none
  else
    let core : Option (ParsedLine × List Char) :=
      (((parseLabelDef (input.dropWhile isSpaceTab)).map
          (fun p => (ParsedLine.Label p.1, p.2))).orElse fun _ =>
      ((parse_instr (input.dropWhile isSpaceTab)).map
          (fun p => (ParsedLine.Instr p.1, p.2))).orElse fun _ =>
      ((parseStringLit (input.dropWhile isSpaceTab)).map
          (fun p => (ParsedLine.String p.1, p.2))).orElse fun _ =>
      ((parsePush input).map (fun r => (ParsedLine.None, r))).orElse fun _ =>
      ((parseComment input).map (fun r => (ParsedLine.None, r))).orElse fun _ =>
      ((multispace1 input).map (fun r => (ParsedLine.None, r))).orElse fun _ =>
      (match input with
       | '.' :: t => some (ParsedLine.None, t.dropWhile (fun c => !(c == '\n')))
       | _ => none))
    match core with
    | some (l, rest) =>
      match parseEndOfLine rest with
      | some r => some (l, r)
      | none => some (l, rest)
    | none => none

/-- `many_till(parse_line, eof)`, fuelled (each `parse_line` success
consumes at least one character, so `input.length` fuel suffices). -/
def parseLinesGo : Nat → List Char → Option (List ParsedLine)
  | _, [] => some []
  | 0, _ => none
  | fuel + 1, input =>
    match parse_line input with
    | some (l, rest) => (parseLinesGo fuel rest).map (fun ls => l :: ls)
    | none => none

/-- The whitespace class of the regex `\s` in `preprocess`. -/
def isWsChar (c : Char) : Bool := c.isWhitespace

/-- `\s+` (greedy; the following pattern character is never whitespace, so
maximal munch is exact). -/
def wsPlus (input : List Char) : Option (List Char) :=
  match input with
  | c :: t => if isWsChar c then some (t.dropWhile isWsChar) else none
  | [] => none

/-- Matcher for the regex `movs?\s+(r\d), (r\d)` of `preprocess` at the
head of the input, returning the replacement `lsls $1, $2, #0` and the
rest. -/
def matchMov (input : List Char) : Option (List Char × List Char) :=
  match input with
  | 'm' :: 'o' :: 'v' :: rest =>
    let afterMnem : Option (List Char) :=
      if rest.head? == some 's' then wsPlus rest.tail else wsPlus rest
    match afterMnem with
    | some r3 =>
      match r3 with
      | 'r' :: d :: ',' :: ' ' :: 'r' :: m :: rest4 =>
        if d.isDigit && m.isDigit then
          some ("lsls r".data ++ d :: ", r".data ++ m :: ", #0".data, rest4)
        else none
      | _ => none
    | none => none
  | _ => none

/-- Matcher for the regex `ldrb\s+(r\d), \[(r\d), (r\d)\]` of `preprocess`,
returning the replacement `adds r6, $2, $3\nldrb $1, [r6]` and the rest. -/
def matchLdrb (input : List Char) : Option (List Char × List Char) :=
  match input with
  | 'l' :: 'd' :: 'r' :: 'b' :: rest =>
    match wsPlus rest with
    | some r1 =>
      match r1 with
      | 'r' :: t :: ',' :: ' ' :: '[' :: 'r' :: n :: ',' :: ' ' :: 'r' :: m :: ']' :: rest2 =>
        if t.isDigit && n.isDigit && m.isDigit then
          some ("adds r6, r".data ++ n :: ", r".data ++ m :: "\nldrb r".data
                ++ t :: ", [r6]".data, rest2)
        else none
      | _ => none
    | none => none
  | _ => none

/-- `Regex::replace_all`: scan left to right, replacing each
non-overlapping match (fuelled; every match consumes at least one
character, so `input.length` fuel suffices). -/
def replaceAllF (m : List Char → Option (List Char × List Char)) :
    Nat → List Char → List Char
  | 0, l => l
  | _ + 1, [] => []
  | fuel + 1, c :: cs =>
    match m (c :: cs) with
    | some (repl, rest) => repl ++ replaceAllF m fuel rest
    | none => c :: replaceAllF m fuel cs

/-- `preprocess` from `parser.rs`: the two regex rewrites in order. -/
def preprocessChars (l : List Char) : List Char :=
  let a := replaceAllF matchMov l.length l
  replaceAllF matchLdrb a.length a

/-- The parse error of `parse_lines` (the nom diagnostics are irrelevant to
the claims). -/
inductive ParseErr
  | nomError
deriving DecidableEq, Repr

/-- `parse_lines` from `parser.rs`: preprocess, parse all lines, drop the
`None` lines. -/
def parse_lines (input : String) : Except ParseErr (List ParsedLine) :=
  let pp := preprocessChars input.data
  match parseLinesGo pp.length pp with
  | some lines => .ok (lines.filter (fun l => !(l == ParsedLine.None)))
  | none => .error .nomError

/-! ## Hex serialization and the public entry point (`lib.rs`) -/

/-- One lowercase hex digit. -/
def hexDigitChar (n : Nat) : Char :=
  "0123456789abcdef".data.getD n '0'

/-- `format!("{:04x}")` of a 16-bit value. -/
def hex4 (n : Nat) : List Char :=
  [hexDigitChar (n / 4096 % 16), hexDigitChar (n / 256 % 16),
   hexDigitChar (n / 16 % 16), hexDigitChar (n % 16)]

/-- `BitSlice::chunks(16)`, fuelled (16 or fewer bits per chunk). -/
def chunks16F : Nat → Bits → List Bits
  | 0, _ => []
  | _ + 1, [] => []
  | fuel + 1, l => l.take 16 :: chunks16F fuel (l.drop 16)

/-- `load_be::<u16>` of a chunk. -/
def bitsToNat (b : Bits) : Nat :=
  b.foldl (fun a x => 2 * a + (if x then 1 else 0)) 0

/-- Rust's `str::trim` (drop whitespace at both ends). -/
def trimChars (l : List Char) : List Char :=
  ((l.dropWhile Char.isWhitespace).reverse.dropWhile Char.isWhitespace).reverse

/-- `convert_to_logisim` from `lib.rs`: the `v2.0 raw` header then each
16-bit chunk as four lowercase hex digits and a space, trimmed. -/
def convert_to_logisim (data : Bits) : String :=
  let words := (chunks16F data.length data).map (fun c => hex4 (bitsToNat c))
  String.mk (trimChars ("v2.0 raw\n".data ++ (words.map (fun w => w ++ [' '])).flatten))

/-- `LogisimProgram` from `lib.rs`. -/
structure LogisimProgram where
  rom : String
  ram : String
deriving DecidableEq, Repr

/-- The failures of `export_to_logisim` (`ExportError`, extended with the
modelled panic of `extract_ram`). -/
inductive ExportFailure
  | parseErr (e : ParseErr)
  | completeErr (e : CompleteError)
  | panicked (msg : String)
deriving DecidableEq, Repr

/-- `export_to_logisim` from `lib.rs`. -/
def export_to_logisim (input : String) : Except ExportFailure LogisimProgram :=
  match parse_lines input with
  | .error e => .error (.parseErr e)
  | .ok lines =>
    match make_program lines with
    | .error (.completeErr e) => .error (.completeErr e)
    | .error (.panicked m) => .error (.panicked m)
    | .ok prog => .ok ⟨convert_to_logisim prog.instrs, convert_to_logisim prog.ram⟩

/-! ## Claim-side auxiliary definitions -/

/-- The conditional branch mnemonics (`beq` .. `ble`, `bal`). -/
def isCondBranch : Instr → Bool
  | .Beq | .Bne | .Bcs | .Bcc | .Bmi | .Bpl | .Bvs | .Bvc | .Bhi | .Bls
  | .Bge | .Blt | .Bgt | .Ble | .Bal => true
  | _ => false

/-- The instruction/argument-family combinations of the catalog
(`INSTRUCTIONS` in `parser.rs`), extended with the resolved forms produced
by `FullInstr::complete` (`Label` to `Immediate8S`/`Immediate11`, and
`Ldr3`'s `RtLabel` to `RdImm8`). -/
def wellFormed (fi : FullInstr) : Bool :=
  match fi.instr, fi.args with
  | .Lsls, .RdRmImm5 .. | .Lsrs, .RdRmImm5 .. | .Asrs, .RdRmImm5 .. => true
  | .Adds, .RdRnRm .. | .Subs, .RdRnRm .. => true
  | .Adds2, .RdRnImm3 .. | .Subs2, .RdRnImm3 .. => true
  | .Adds3, .RdImm8 .. | .Subs3, .RdImm8 .. | .Movs, .RdImm8 ..
  | .Cmp2, .RdImm8 .. => true
  | .Rsbs, .RdRnImm0 .. => true
  | .Ands, .TwoRegs .. | .Eors, .TwoRegs .. | .Lsls2, .TwoRegs ..
  | .Lsrs2, .TwoRegs .. | .Asrs2, .TwoRegs .. | .Adcs, .TwoRegs ..
  | .Sbcs, .TwoRegs .. | .Rors, .TwoRegs .. | .Tst, .TwoRegs ..
  | .Rsbs, .TwoRegs .. | .Cmp, .TwoRegs .. | .Cmn, .TwoRegs ..
  | .Orrs, .TwoRegs .. | .Muls, .TwoRegs .. | .Bics, .TwoRegs ..
  | .Mvns, .TwoRegs .. => true
  | .Str, .RtSpImm8W .. | .Ldr, .RtSpImm8W .. => true
  | .Ldr2, .RtRnImm5 .. => true
  | .Ldr3, .RtLabel .. | .Ldr3, .RdImm8 .. => true
  | .AddSp, .Immediate7W .. | .SubSp, .Immediate7W .. => true
  | .B, .Label .. | .B, .Immediate11 .. => true
  | i, .Label .. => isCondBranch i
  | i, .Immediate8S .. => isCondBranch i
  | _, _ => false

/-- A resolved (label-free) instruction. -/
def labelFree (fi : FullInstr) : Bool :=
  match fi.args with
  | .Label _ => false
  | .RtLabel .. => false
  | _ => true

/-- The claim-side big-endian field encoding: bit `j` (from the most
significant end) of a `w`-bit field holding `v`. -/
def beBits (w v : Nat) : Bits :=
  (List.range w).map (fun j => decide (v / 2 ^ (w - 1 - j) % 2 = 1))

/-! ## C2: `Immediate::new` bounds (evidence of the code bug) -/

/-- C2: the claim says `Immediate<N, false>::new(v)` is `Ok` exactly for
`v ≤ 2^N - 1` and `Immediate<N, true>::new(v)` only for multiples of 4 up
to `2^(N+2) - 1`.  The code instead compares inclusively against `2^N`
(resp. `2^(N+2)`) and never checks divisibility by 4: `new(32)` on a
5-bit immediate succeeds (claim says `OutOfRange`), `new(6)` on a wide
8-bit immediate succeeds storing `1` (claim says `OutOfRange`), and
`new(1024)` on the wide 8-bit immediate succeeds storing `256`, which does
not fit in 8 bits. -/
theorem immediate_new_bound_bug :
    Immediate.new 5 false 32 = .ok ⟨32⟩
    ∧ Immediate.new 8 true 6 = .ok ⟨1⟩
    ∧ Immediate.new 8 true 1024 = .ok ⟨256⟩
    ∧ Immediate.new 5 false 33 = .error (.TooLarge 33) := by
  refine ⟨rfl, rfl, rfl, rfl⟩

/-! ## C3: `Ldr3` RAM-label resolution at offset 256 (code bug evidence) -/

/-- C3: resolving `ldr r0, s` with RAM label `s` at byte offset 256
succeeds (producing a `movs`-encoded `RdImm8` whose 8-bit field holds 256)
although the claim requires `JumpTooFar` for every offset exceeding 255;
at offset 257 the code does fail as claimed.  The rewrite itself matches
the claim: the result is the `RdImm8` form and `Ldr3` shares its opcode
bits with `Movs`. -/
theorem ldr3_ram_offset_256_accepted :
    FullInstr.complete ⟨.Ldr3, .RtLabel .R0 "s"⟩ 0 [] [("s", 256)]
      = .ok ⟨.Ldr3, .RdImm8 .R0 ⟨256⟩⟩
    ∧ FullInstr.complete ⟨.Ldr3, .RtLabel .R0 "s"⟩ 0 [] [("s", 257)]
      = .error (.JumpTooFar "s" 257)
    ∧ Instr.bits .Ldr3 = Instr.bits .Movs := by
  refine ⟨rfl, rfl, rfl⟩

/-! ## C4: the label carried by `JumpTooFar` (code bug evidence) -/

/-- C4: a conditional branch at ROM index 0 to label `far` bound to ROM
index 300 overflows the 8-bit range; the resulting `JumpTooFar` carries
the string `"300"` — the target ROM index stringified — rather than the
label name `"far"` the claim (and the error's own display format)
promises.  The distance 297 is carried as claimed. -/
theorem jump_too_far_carries_address_not_name :
    FullInstr.complete ⟨.Beq, .Label "far"⟩ 0 [("far", 300)] []
      = .error (.JumpTooFar "300" 297)
    ∧ ("300" : String) ≠ "far" := by
  exact ⟨rfl, by decide⟩

/-! ## C7: the Hello-world seed scenario -/

set_option maxRecDepth 100000 in
/-- C7: assembling the four-line program through `export_to_logisim`
succeeds with ROM word `e7fd` after the `v2.0 raw` header and the thirteen
RAM words `0048 0065 006c 006c 006f 002c 0020 0077 006f 0072 006c 0064
0021` (each string byte in the low 8 bits of a big-endian 16-bit word). -/
theorem hello_world_export :
    export_to_logisim "string_label:\n.asciz \"Hello, world!\"\n.end:\nb .end"
      = .ok ⟨"v2.0 raw\ne7fd",
             "v2.0 raw\n0048 0065 006c 006c 006f 002c 0020 0077 006f 0072 006c 0064 0021"⟩ := by
  rfl

/-! ## C1: pipeline-relative branch offsets -/

/-- The `usize as i16` cast is the identity below `2^15`. -/
theorem i16ofNat_small (n : Nat) (h : n < 32768) : i16ofNat n = n := by
  unfold i16ofNat
  rw [Nat.mod_eq_of_lt (by omega)]
  simp [h]

/-- `i16` wrapping is the identity inside the representable range. -/
theorem i16wrap_id (z : Int) (h1 : -32768 ≤ z) (h2 : z ≤ 32767) :
    i16wrap z = z := by
  unfold i16wrap
  omega

/-- `complete_label_imm8` returns the exact offset when it is in the 8-bit
signed range (and the indices are small enough for the `i16` casts to be
exact). -/
theorem complete8_ok (target cur : Nat) (ht : target < 32768)
    (hc : cur < 32768) (h1 : -128 ≤ (target : Int) - cur - 3)
    (h2 : (target : Int) - cur - 3 ≤ 127) :
    complete_label_imm8 target cur = .ok ⟨(target : Int) - cur - 3⟩ := by
  unfold complete_label_imm8
  rw [i16ofNat_small _ ht, i16ofNat_small _ hc,
      i16wrap_id _ (by omega) (by omega)]
  simp only [SignedImmediate.new, SignedImmediate.lower_bound,
    SignedImmediate.upper_bound]
  norm_num
  rw [if_pos (by constructor <;> omega)]

/-- `complete_label_imm11` returns the exact offset when it is in the
11-bit signed range. -/
theorem complete11_ok (target cur : Nat) (ht : target < 32768)
    (hc : cur < 32768) (h1 : -1024 ≤ (target : Int) - cur - 3)
    (h2 : (target : Int) - cur - 3 ≤ 1023) :
    complete_label_imm11 target cur = .ok ⟨(target : Int) - cur - 3⟩ := by
  unfold complete_label_imm11
  rw [i16ofNat_small _ ht, i16ofNat_small _ hc,
      i16wrap_id _ (by omega) (by omega)]
  simp only [SignedImmediate.new, SignedImmediate.lower_bound,
    SignedImmediate.upper_bound]
  norm_num
  rw [if_pos (by constructor <;> omega)]

/-- C1: a branch at ROM index `cur` whose label is bound to ROM index
`target` resolves to the offset `target - cur - 3`: an 11-bit signed
immediate for the unconditional `B`, an 8-bit signed immediate for every
conditional branch mnemonic (indices below `2^15` keep the source's `i16`
casts exact; the offset must fit the immediate's range). -/
theorem branch_complete_offset (rom ram : LabelLookup) (name : String)
    (target cur : Nat) (hlook : lookupL rom name = some target)
    (ht : target < 32768) (hc : cur < 32768) :
    (∀ i : Instr, isCondBranch i = true →
      -128 ≤ (target : Int) - cur - 3 → (target : Int) - cur - 3 ≤ 127 →
      FullInstr.complete ⟨i, .Label name⟩ cur rom ram
        = .ok ⟨i, .Immediate8S ⟨(target : Int) - cur - 3⟩⟩)
    ∧ (-1024 ≤ (target : Int) - cur - 3 → (target : Int) - cur - 3 ≤ 1023 →
      FullInstr.complete ⟨.B, .Label name⟩ cur rom ram
        = .ok ⟨.B, .Immediate11 ⟨(target : Int) - cur - 3⟩⟩) := by
  constructor
  · intro i hi h1 h2
    cases i <;> first
      | exact absurd hi (by decide)
      | (unfold FullInstr.complete
         simp only [hlook, complete8_ok target cur ht hc h1 h2])
  · intro h1 h2
    unfold FullInstr.complete
    simp only [hlook, complete11_ok target cur ht hc h1 h2]

/-- Witness for C1 at a concrete program point: `beq l` and `b l` at ROM
index 0 with `l` at ROM index 5 resolve to offset 2. -/
theorem branch_complete_offset_witness :
    FullInstr.complete ⟨.Beq, .Label "l"⟩ 0 [("l", 5)] []
      = .ok ⟨.Beq, .Immediate8S ⟨2⟩⟩
    ∧ FullInstr.complete ⟨.B, .Label "l"⟩ 0 [("l", 5)] []
      = .ok ⟨.B, .Immediate11 ⟨2⟩⟩ := by
  have h := branch_complete_offset [("l", 5)] [] "l" 5 0 rfl (by decide)
    (by decide)
  exact ⟨h.1 .Beq rfl (by decide) (by decide), h.2 (by decide) (by decide)⟩

/-! ## C10: register operand parsing -/

/-- No register has a code above 15. -/
theorem tryFrom_none_of_gt (v : Nat) (h : 15 < v) : Reg.tryFrom v = none := by
  have h0 : ∀ k : Nat, k ≤ 15 → (k == v) = false := by
    intro k hk
    exact beq_eq_false_iff_ne.mpr (by omega)
  simp [Reg.tryFrom, List.find?, Reg.code, h0 0, h0 1, h0 2, h0 3, h0 4,
    h0 5, h0 6, h0 7, h0 14, h0 15]

/-- `Reg::try_from` succeeds exactly on the codes 0..7, 14 and 15. -/
theorem tryFrom_isSome_iff (v : Nat) :
    (Reg.tryFrom v).isSome ↔ (v ≤ 7 ∨ v = 14 ∨ v = 15) := by
  rw [Reg.tryFrom, List.find?_isSome]
  simp [Reg.code]
  omega

/-- Parsing `r` followed by a digit string defers exactly to
`Reg::try_from` on the numeric value. -/
theorem reg_parse_chars (s : List Char) (hne : s ≠ [])
    (hdig : ∀ c ∈ s, c.isDigit = true) :
    parseReg ('r' :: s)
      = (Reg.tryFrom (digitsVal s)).map (fun r => (r, ([] : List Char))) := by
  have htw : s.takeWhile Char.isDigit = s := List.takeWhile_eq_self_iff.mpr hdig
  have hdw : s.dropWhile Char.isDigit = [] := List.dropWhile_eq_nil_iff.mpr hdig
  have hie : s.isEmpty = false := by simp [List.isEmpty_iff, hne]
  have htag : tagNoCase ['r'] ('r' :: s) = some s := by simp [tagNoCase]
  unfold parseReg digit1 parseU8
  simp only [htag, htw, hdw, hie, Bool.false_eq_true, if_false]
  by_cases h255 : digitsVal s ≤ 255
  · simp only [h255, if_true]
    cases hf : Reg.tryFrom (digitsVal s) with
    | some r => simp [hf]
    | none => simp [hf, tagNoCase]
  · have hn : Reg.tryFrom (digitsVal s) = none := tryFrom_none_of_gt _ (by omega)
    simp [h255, hn, tagNoCase]

/-- C10 counterexample: the claim says `rN` fails for every `N ≥ 8`, but
`r14` parses to `PC` and `r15` parses to `SP` (`Reg::try_from` accepts the
codes 14 and 15); `r0007` is also accepted as `R7`, another spelling
beyond `r0`..`r7`/`sp`/`pc`. -/
theorem reg_parse_r14_succeeds :
    parseReg "r14".data = some (.PC, [])
    ∧ parseReg "r15".data = some (.SP, [])
    ∧ parseReg "r0007".data = some (.R7, []) := by
  refine ⟨rfl, rfl, rfl⟩

/-- C10 amended: a register operand `r` followed by digits parses exactly
when the digits' value is in {0..7, 14, 15} (14 giving `PC`, 15 giving
`SP`), and the spellings `sp` and `pc` are accepted as well. -/
theorem reg_parse_amended :
    (∀ s : List Char, s ≠ [] → (∀ c ∈ s, c.isDigit = true) →
      parseReg ('r' :: s)
          = (Reg.tryFrom (digitsVal s)).map (fun r => (r, ([] : List Char)))
        ∧ ((parseReg ('r' :: s)).isSome ↔
            (digitsVal s ≤ 7 ∨ digitsVal s = 14 ∨ digitsVal s = 15)))
    ∧ parseReg "sp".data = some (.SP, [])
    ∧ parseReg "pc".data = some (.PC, []) := by
  refine ⟨fun s hne hdig => ?_, rfl, rfl⟩
  have h := reg_parse_chars s hne hdig
  refine ⟨h, ?_⟩
  rw [h]
  simp [tryFrom_isSome_iff]

/-- Witness for the amended C10 at `s = "14"`: `r14` parses (to `PC`). -/
theorem reg_parse_amended_witness :
    parseReg ('r' :: ['1', '4'])
      = (Reg.tryFrom (digitsVal ['1', '4'])).map (fun r => (r, ([] : List Char))) := by
  exact (reg_parse_amended.1 ['1', '4'] (by decide) (by decide)).1

/-! ## C9: `mov`/`movs` register moves rewrite to `lsls` -/

/-- The digit character of a register number below 8. -/
def digitChar (d : Fin 8) : Char := Char.ofNat (48 + d.val)

/-- The characters of the line `lsls r<d>, r<m>, #0`. -/
def lslsChars (d m : Fin 8) : List Char :=
  "lsls r".data ++ digitChar d :: ", r".data ++ digitChar m :: ", #0".data

/-- The characters of the line `mov r<d>, r<m>` (with optional `s`, the
whitespace run `ws` after the mnemonic, and the exact `, ` separator the
regex requires). -/
def movChars (s : Bool) (d m : Fin 8) (ws : List Char) : List Char :=
  "mov".data ++ (if s then ['s'] else []) ++ ws
    ++ 'r' :: digitChar d :: ',' :: ' ' :: 'r' :: digitChar m :: []

/-- `dropWhile` skips a prefix on which the predicate holds. -/
theorem dropWhile_append_of_all {p : Char → Bool} (a l : List Char)
    (h : ∀ c ∈ a, p c = true) :
    List.dropWhile p (a ++ l) = List.dropWhile p l := by
  induction a with
  | nil => rfl
  | cons x t ih =>
    rw [List.cons_append, List.dropWhile_cons, h x (by simp)]
    exact ih (fun c hc => h c (by simp [hc]))

/-- Register-number characters are digits. -/
theorem digitChar_isDigit (d : Fin 8) : (digitChar d).isDigit = true := by
  revert d
  decide

/-- The `movs?\s+(r\d), (r\d)` regex matches a whole `mov` line and yields
the `lsls` replacement. -/
theorem matchMov_mov (s : Bool) (d m : Fin 8) (ws : List Char)
    (h1 : ws ≠ []) (h2 : ∀ c ∈ ws, isWsChar c = true) :
    matchMov (movChars s d m ws) = some (lslsChars d m, []) := by
  obtain ⟨c, ws', rfl⟩ : ∃ c ws', ws = c :: ws' := by
    cases ws with
    | nil => exact absurd rfl h1
    | cons c t => exact ⟨c, t, rfl⟩
  have hc : isWsChar c = true := h2 c (by simp)
  have hws' : ∀ x ∈ ws', isWsChar x = true := fun x hx => h2 x (by simp [hx])
  have hdrop : List.dropWhile isWsChar
      (ws' ++ 'r' :: digitChar d :: ',' :: ' ' :: 'r' :: digitChar m :: [])
      = 'r' :: digitChar d :: ',' :: ' ' :: 'r' :: digitChar m :: [] := by
    rw [dropWhile_append_of_all ws' _ hws']
    rfl
  cases s with
  | true =>
    show matchMov ('m' :: 'o' :: 'v' :: 's' :: c :: (ws'
      ++ 'r' :: digitChar d :: ',' :: ' ' :: 'r' :: digitChar m :: [])) = _
    simp only [matchMov, List.head?, List.tail, wsPlus, hc, if_true,
      List.cons_append]
    simp only [hdrop, digitChar_isDigit, Bool.and_self, if_true]
    simp only [show (some 's' == some 's') = true from rfl, if_true]
    simp [lslsChars, digitChar_isDigit]
  | false =>
    have hcs : (c == 's') = false := by
      refine beq_eq_false_iff_ne.mpr ?_
      intro h
      rw [h] at hc
      exact absurd hc (by decide)
    show matchMov ('m' :: 'o' :: 'v' :: c :: (ws'
      ++ 'r' :: digitChar d :: ',' :: ' ' :: 'r' :: digitChar m :: [])) = _
    simp only [matchMov, List.head?, wsPlus, hc, List.cons_append]
    simp only [show ((some c == some 's')) = ((c == 's')) from by simp, hcs,
      Bool.false_eq_true, if_false, if_true]
    simp only [hdrop, digitChar_isDigit, Bool.and_self, if_true]
    simp [lslsChars, digitChar_isDigit]

/-- `replace_all` on the empty input. -/
theorem replaceAllF_nil (f : List Char → Option (List Char × List Char))
    (n : Nat) : replaceAllF f n [] = [] := by
  cases n <;> rfl

/-- `replace_all` when the pattern matches the entire input. -/
theorem replaceAllF_single (f : List Char → Option (List Char × List Char))
    (l res : List Char) (hne : l ≠ []) (hm : f l = some (res, [])) :
    replaceAllF f l.length l = res := by
  cases l with
  | nil => exact absurd rfl hne
  | cons c cs =>
    rw [List.length_cons]
    show replaceAllF f (cs.length + 1) (c :: cs) = res
    simp only [replaceAllF, hm, replaceAllF_nil]
    simp

/-- The `mov` regex never matches inside a `lsls` line. -/
theorem lsls_pass_mov (d m : Fin 8) :
    replaceAllF matchMov (lslsChars d m).length (lslsChars d m)
      = lslsChars d m := by
  revert d m
  decide

/-- The `ldrb` regex never matches inside a `lsls` line. -/
theorem lsls_pass_ldrb (d m : Fin 8) :
    replaceAllF matchLdrb (lslsChars d m).length (lslsChars d m)
      = lslsChars d m := by
  revert d m
  decide

/-- `preprocess` leaves a `lsls` line unchanged. -/
theorem preprocess_lsls (d m : Fin 8) :
    preprocessChars (lslsChars d m) = lslsChars d m := by
  unfold preprocessChars
  rw [lsls_pass_mov, lsls_pass_ldrb]

/-- `preprocess` rewrites a whole `mov`/`movs` register-move line into the
corresponding `lsls` line. -/
theorem preprocess_mov (s : Bool) (d m : Fin 8) (ws : List Char)
    (h1 : ws ≠ []) (h2 : ∀ c ∈ ws, isWsChar c = true) :
    preprocessChars (movChars s d m ws) = lslsChars d m := by
  have hne : movChars s d m ws ≠ [] := by
    show ('m' :: _ : List Char) ≠ []
    simp
  unfold preprocessChars
  rw [replaceAllF_single matchMov _ _ hne (matchMov_mov s d m ws h1 h2),
    lsls_pass_ldrb]

/-- C9 counterexample: the claim promises case-insensitivity and
whitespace-insensitivity, but the rewrite regex is case-sensitive and
requires exactly `, ` between the registers: `MOV r0, r1` and
`mov r0,r1` fail to parse entirely, while `lsls r0, r1, #0` parses. -/
theorem mov_case_or_comma_rejected :
    parse_lines "MOV r0, r1" = .error .nomError
    ∧ parse_lines "mov r0,r1" = .error .nomError
    ∧ parse_lines "lsls r0, r1, #0"
        = .ok [.Instr ⟨.Lsls, .RdRmImm5 .R0 .R1 ⟨0⟩⟩] := by
  refine ⟨rfl, rfl, rfl⟩

/-- C9 amended: a line `mov rd, rm` or `movs rd, rm` (rd, rm in r0..r7)
written in lowercase, with one or more whitespace characters after the
mnemonic and exactly `, ` between the registers, parses to the same
`ParsedLine` as `lsls rd, rm, #0`. -/
theorem c9_mov_equals_lsls (s : Bool) (d m : Fin 8) (ws : List Char)
    (h1 : ws ≠ []) (h2 : ∀ c ∈ ws, isWsChar c = true) :
    parse_lines (String.mk (movChars s d m ws))
      = parse_lines (String.mk (lslsChars d m)) := by
  unfold parse_lines
  rw [show (String.mk (movChars s d m ws)).data = movChars s d m ws from rfl,
    show (String.mk (lslsChars d m)).data = lslsChars d m from rfl,
    preprocess_mov s d m ws h1 h2, preprocess_lsls d m]

/-- Witness for the amended C9: `movs r0, r1` parses like
`lsls r0, r1, #0`. -/
theorem c9_mov_equals_lsls_witness :
    parse_lines (String.mk (movChars true 0 1 [' ']))
      = parse_lines (String.mk (lslsChars 0 1)) :=
  c9_mov_equals_lsls true 0 1 [' '] (by decide) (by decide)

/-! ## C8: a string line without a preceding label -/

/-- Scans a line stream as `extract_ram` does: `true` when some `String`
line arrives while no label is pending (the flag tracks whether
`last_labels` is nonempty). -/
def hasUnlabeledString : Bool → List ParsedLine → Bool
  | _, [] => false
  | _, .Label _ :: t => hasUnlabeledString true t
  | pending, .String _ :: t => if pending then hasUnlabeledString false t else true
  | _, _ :: t => hasUnlabeledString false t

/-- `extract_ram` hits its `panic!` exactly along the scan flag. -/
theorem extract_go_err : ∀ (lines : List ParsedLine) (pending : List String),
    hasUnlabeledString (!pending.isEmpty) lines = true →
    ∃ msg, extract_ram_go lines pending = .error msg := by
  intro lines
  induction lines with
  | nil => intro pending h; exact absurd h (by simp [hasUnlabeledString])
  | cons x t ih =>
    intro pending h
    cases x with
    | Label l =>
      have h' : hasUnlabeledString (!(pending ++ [l]).isEmpty) t = true := by
        rw [show (!(pending ++ [l]).isEmpty) = true from by simp]
        simpa [hasUnlabeledString] using h
      obtain ⟨msg, hm⟩ := ih (pending ++ [l]) h'
      exact ⟨msg, by simpa [extract_ram_go] using hm⟩
    | String s =>
      by_cases hp : pending.isEmpty
      · exact ⟨"String without label: " ++ s, by simp [extract_ram_go, hp]⟩
      · have h' : hasUnlabeledString false t = true := by
          simp [hasUnlabeledString, hp] at h
          simpa using h
        obtain ⟨msg, hm⟩ := ih [] (by simpa using h')
        refine ⟨msg, ?_⟩
        simp [extract_ram_go, hp, hm]
    | Instr i =>
      have h' : hasUnlabeledString false t = true := by
        simpa [hasUnlabeledString] using h
      obtain ⟨msg, hm⟩ := ih [] (by simpa using h')
      exact ⟨msg, by simp [extract_ram_go, hm]⟩
    | Long n =>
      have h' : hasUnlabeledString false t = true := by
        simpa [hasUnlabeledString] using h
      obtain ⟨msg, hm⟩ := ih [] (by simpa using h')
      exact ⟨msg, by simp [extract_ram_go, hm]⟩
    | None =>
      have h' : hasUnlabeledString false t = true := by
        simpa [hasUnlabeledString] using h
      obtain ⟨msg, hm⟩ := ih [] (by simpa using h')
      exact ⟨msg, by simp [extract_ram_go, hm]⟩

/-- C8 counterexample: on the single line `.asciz "hi"` the assembler does
not return a parse error — parsing succeeds and the pipeline aborts
abnormally (the `panic!` of `extract_ram`, modelled as the `panicked`
outcome). -/
theorem asciz_without_label_panics :
    export_to_logisim ".asciz \"hi\""
        = .error (.panicked "String without label: hi")
    ∧ parse_lines ".asciz \"hi\"" = .ok [.String "hi"]
    ∧ ∀ e, export_to_logisim ".asciz \"hi\"" ≠ .error (.parseErr e) := by
  refine ⟨rfl, rfl, ?_⟩
  intro e h
  rw [show export_to_logisim ".asciz \"hi\""
      = .error (.panicked "String without label: hi") from rfl] at h
  simp at h

/-- C8 amended: whenever the parsed line stream contains a `String` line
not covered by pending labels, the assembler panics (`String without
label`) rather than returning an error result. -/
theorem c8_unlabeled_string_panics (input : String) (lines : List ParsedLine)
    (hp : parse_lines input = .ok lines)
    (hs : hasUnlabeledString false lines = true) :
    ∃ msg, export_to_logisim input = .error (.panicked msg) := by
  obtain ⟨msg, hmsg⟩ := extract_go_err lines [] (by simpa using hs)
  have hmp : make_program lines = .error (.panicked msg) := by
    unfold make_program extract_ram
    rw [hmsg]
  refine ⟨msg, ?_⟩
  unfold export_to_logisim
  rw [hp]
  simp only [hmp]

/-- Witness for the amended C8 at the input `.asciz "hi"`. -/
theorem c8_unlabeled_string_panics_witness :
    ∃ msg, export_to_logisim ".asciz \"hi\"" = .error (.panicked msg) :=
  c8_unlabeled_string_panics ".asciz \"hi\"" [.String "hi"] rfl rfl

/-! ## C6: flatten orders and big-endian fields -/

/-- The `store_be` encoding agrees with the claim-side big-endian field
specification. -/
theorem storeBe_eq_beBits (w v : Nat) : storeBe w v = beBits w v := by
  simp [storeBe, beBits, Nat.testBit_to_div_mod]

/-- C6: the encoder emits the opcode bits then the operand fields in the
family flatten order — `RdRmImm5` as Imm5, Rm, Rd; `RdRnRm` as Rm, Rn,
Rd; `TwoRegs(r1, r2)` as r2, r1 — each register field being the 3
big-endian bits of its numeric code (registers restricted to R0..R7) and
each immediate field its declared width, big-endian. -/
theorem flatten_orders (i : Instr) (rd rm rn r1 r2 : Reg)
    (im5 : Immediate 5 false) (hrd : rd.code < 8) (hrm : rm.code < 8)
    (hrn : rn.code < 8) (hr1 : r1.code < 8) (hr2 : r2.code < 8) :
    FullInstr.to_binary ⟨i, .RdRmImm5 rd rm im5⟩
        = i.bits ++ (beBits 5 im5.val ++ (beBits 3 rm.code ++ beBits 3 rd.code))
    ∧ FullInstr.to_binary ⟨i, .RdRnRm rd rn rm⟩
        = i.bits ++ (beBits 3 rm.code ++ (beBits 3 rn.code ++ beBits 3 rd.code))
    ∧ FullInstr.to_binary ⟨i, .TwoRegs r1 r2⟩
        = i.bits ++ (beBits 3 r2.code ++ beBits 3 r1.code) := by
  refine ⟨?_, ?_, ?_⟩ <;>
    simp [FullInstr.to_binary, Args.toBits, Reg.toBinary, Immediate.toBinary,
      storeBe_eq_beBits, List.append_assoc]

/-- Witness for C6: `lsls r3, r4, #7` flattens as opcode, Imm5, Rm, Rd
(the `lsls` test vector of `emitter.rs`). -/
theorem flatten_orders_witness :
    FullInstr.to_binary ⟨.Lsls, .RdRmImm5 .R3 .R4 ⟨7⟩⟩
        = (Instr.bits .Lsls)
          ++ (beBits 5 7 ++ (beBits 3 (Reg.code .R4) ++ beBits 3 (Reg.code .R3)))
    ∧ FullInstr.to_binary ⟨.Lsls, .RdRmImm5 .R3 .R4 ⟨7⟩⟩
        = bvLit [0, 0, 0, 0, 0, 0, 0, 1, 1, 1, 1, 0, 0, 0, 1, 1] := by
  exact ⟨(flatten_orders .Lsls .R3 .R4 .R0 .R0 .R0 ⟨7⟩ (by decide) (by decide)
    (by decide) (by decide) (by decide)).1, by decide⟩

/-! ## C5: 16-bit instruction words and stream lengths -/

/-- `store_be` emits exactly the field width. -/
theorem storeBe_length (w v : Nat) : (storeBe w v).length = w := by
  simp [storeBe]

/-- Signed `store_be` emits exactly the field width. -/
theorem intStoreBe_length (w : Nat) (v : Int) : (intStoreBe w v).length = w := by
  simp [intStoreBe, storeBe]

set_option maxHeartbeats 1000000 in
/-- Every catalog-shaped, label-free instruction encodes to exactly 16
bits. -/
theorem toBinary_len16 (fi : FullInstr) (hwf : wellFormed fi = true)
    (hlf : labelFree fi = true) : fi.to_binary.length = 16 := by
  obtain ⟨i, a⟩ := fi
  cases a <;> cases i <;>
    simp_all [FullInstr.to_binary, Args.toBits, Instr.bits, wellFormed,
      labelFree, isCondBranch, Reg.toBinary, Immediate.toBinary,
      SignedImmediate.toBinary, storeBe_length, intStoreBe_length, bvLit]



/-- Only branch mnemonics carry a bare `Label` argument. -/
theorem wf_label_branch (ins : Instr) (name : String)
    (h : wellFormed ⟨ins, .Label name⟩ = true) :
    ins = .B ∨ isCondBranch ins = true := by
  cases ins <;> simp_all [wellFormed, isCondBranch]

/-- Only `Ldr3` carries an `RtLabel` argument. -/
theorem wf_rtlabel_ldr3 (ins : Instr) (rt : Reg) (name : String)
    (h : wellFormed ⟨ins, .RtLabel rt name⟩ = true) : ins = .Ldr3 := by
  cases ins <;> simp_all [wellFormed]

/-- `FullInstr::complete` turns a catalog-shaped instruction into a
catalog-shaped, label-free one. -/
theorem complete_wf (ins : Instr) (a : Args) (k : Nat)
    (rom ram : LabelLookup) (j : FullInstr)
    (hwf : wellFormed ⟨ins, a⟩ = true)
    (hc : FullInstr.complete ⟨ins, a⟩ k rom ram = .ok j) :
    wellFormed j = true ∧ labelFree j = true := by
  cases a with
  | Label name =>
    unfold FullInstr.complete at hc
    dsimp only at hc
    cases hl : lookupL rom name with
    | none =>
      simp only [hl] at hc
      simp at hc
    | some addr =>
      simp only [hl] at hc
      rcases wf_label_branch ins name hwf with hB | hcb
      · subst hB
        cases h11 : complete_label_imm11 addr k with
        | ok imm =>
          simp only [h11] at hc
          simp at hc
          subst hc
          exact ⟨rfl, rfl⟩
        | error e =>
          simp only [h11] at hc
          simp at hc
      · cases ins <;> first
          | exact absurd hcb (by decide)
          | (cases h8 : complete_label_imm8 addr k with
             | ok imm =>
               simp only [h8] at hc
               simp at hc
               subst hc
               exact ⟨rfl, rfl⟩
             | error e =>
               simp only [h8] at hc
               simp at hc)
  | RtLabel rt name =>
    have hld := wf_rtlabel_ldr3 ins rt name hwf
    subst hld
    unfold FullInstr.complete at hc
    dsimp only at hc
    cases hl : lookupL ram name with
    | none =>
      simp only [hl] at hc
      simp at hc
    | some addr =>
      simp only [hl] at hc
      cases hi : Immediate.new 8 false (addr % 65536) with
      | ok imm =>
        simp only [hi] at hc
        simp at hc
        subst hc
        exact ⟨rfl, rfl⟩
      | error e =>
        simp only [hi] at hc
        simp at hc
  | Immediate11 imm =>
    unfold FullInstr.complete at hc
    simp at hc
    subst hc
    exact ⟨hwf, rfl⟩
  | Immediate7W imm =>
    unfold FullInstr.complete at hc
    simp at hc
    subst hc
    exact ⟨hwf, rfl⟩
  | Immediate8S imm =>
    unfold FullInstr.complete at hc
    simp at hc
    subst hc
    exact ⟨hwf, rfl⟩
  | RdImm8 rd imm =>
    unfold FullInstr.complete at hc
    simp at hc
    subst hc
    exact ⟨hwf, rfl⟩
  | RdRmImm5 rd rm imm =>
    unfold FullInstr.complete at hc
    simp at hc
    subst hc
    exact ⟨hwf, rfl⟩
  | RdRnImm0 rd rn =>
    unfold FullInstr.complete at hc
    simp at hc
    subst hc
    exact ⟨hwf, rfl⟩
  | RdRnImm3 rd rn imm =>
    unfold FullInstr.complete at hc
    simp at hc
    subst hc
    exact ⟨hwf, rfl⟩
  | RdRnRm rd rn rm =>
    unfold FullInstr.complete at hc
    simp at hc
    subst hc
    exact ⟨hwf, rfl⟩
  | RtSpImm8W rt imm =>
    unfold FullInstr.complete at hc
    simp at hc
    subst hc
    exact ⟨hwf, rfl⟩
  | RtRnImm5 rt rn imm =>
    unfold FullInstr.complete at hc
    simp at hc
    subst hc
    exact ⟨hwf, rfl⟩
  | TwoRegs r1 r2 =>
    unfold FullInstr.complete at hc
    simp at hc
    subst hc
    exact ⟨hwf, rfl⟩

/-- Completing a stream preserves its length and yields well-formed,
label-free instructions. -/
theorem completeAll_ok (rom ram : LabelLookup) :
    ∀ (l : List FullInstr) (k : Nat) (out : List FullInstr),
    (∀ i ∈ l, wellFormed i = true) → completeAll rom ram k l = .ok out →
    out.length = l.length
      ∧ ∀ j ∈ out, wellFormed j = true ∧ labelFree j = true := by
  intro l
  induction l with
  | nil =>
    intro k out h hc
    simp [completeAll] at hc
    subst hc
    simp
  | cons i t ih =>
    intro k out h hc
    unfold completeAll at hc
    cases hci : i.complete k rom ram with
    | error e => simp only [hci] at hc; simp at hc
    | ok j =>
      cases hca : completeAll rom ram (k + 1) t with
      | error e => simp only [hci, hca] at hc; simp at hc
      | ok r =>
        simp only [hci, hca] at hc
        simp at hc
        subst hc
        obtain ⟨hlen, hall⟩ := ih (k + 1) r (fun x hx => h x (by simp [hx])) hca
        have hj := complete_wf i.instr i.args k rom ram j (h i (by simp)) hci
        refine ⟨by simp [hlen], ?_⟩
        intro x hx
        rcases List.mem_cons.mp hx with rfl | hx'
        · exact hj
        · exact hall x hx'

/-- The length of the folded ROM bit stream. -/
theorem foldl_toBinary_len :
    ∀ (l : List FullInstr) (init : Bits),
    (∀ i ∈ l, i.to_binary.length = 16) →
    (l.foldl (fun acc i => acc ++ i.to_binary) init).length
      = init.length + 16 * l.length := by
  intro l
  induction l with
  | nil => intro init h; simp
  | cons i t ih =>
    intro init h
    rw [List.foldl_cons, ih _ (fun x hx => h x (by simp [hx]))]
    simp [h i (by simp)]
    ring

/-- Flattening 16-bit code units. -/
theorem flatten16_len (bs : List Nat) :
    ((bs.map (storeBe 16)).flatten).length = 16 * bs.length := by
  induction bs with
  | nil => simp
  | cons b t ih => simp [ih, storeBe_length]; ring

/-- The folded RAM bit stream keeps a length divisible by 16. -/
theorem foldl_ram_dvd :
    ∀ (l : List String) (init : Bits), 16 ∣ init.length →
    16 ∣ (l.foldl (fun acc s => acc ++ stringToBinary s) init).length := by
  intro l
  induction l with
  | nil => intro init h; simpa using h
  | cons s t ih =>
    intro init h
    rw [List.foldl_cons]
    refine ih _ ?_
    rw [List.length_append]
    exact Nat.dvd_add h (by rw [show (stringToBinary s).length = 16 * (strBytes s).length from flatten16_len _]; exact Dvd.intro _ rfl)

/-- Instruction lines kept by `extract_ram` come from the input. -/
theorem extract_keep_mem :
    ∀ (lines : List ParsedLine) (pending : List String)
      (ram kept : List ParsedLine),
    extract_ram_go lines pending = .ok (ram, kept) →
    ∀ fi, ParsedLine.Instr fi ∈ kept → ParsedLine.Instr fi ∈ lines := by
  intro lines
  induction lines with
  | nil =>
    intro pending ram kept hc fi hfi
    simp [extract_ram_go] at hc
    obtain ⟨h1, h2⟩ := hc
    subst h2
    rw [List.mem_map] at hfi
    obtain ⟨x, hx, he⟩ := hfi
    cases he
  | cons x t ih =>
    intro pending ram kept hc fi hfi
    cases x with
    | Label l =>
      have := ih (pending ++ [l]) ram kept (by simpa [extract_ram_go] using hc) fi hfi
      simp [this]
    | String s =>
      unfold extract_ram_go at hc
      by_cases hp : pending.isEmpty
      · simp [hp] at hc
      · simp only [hp] at hc
        cases hrec : extract_ram_go t [] with
        | error e => simp [hrec] at hc
        | ok pr =>
          obtain ⟨ram', kept'⟩ := pr
          simp only [hrec, Bool.false_eq_true, if_false] at hc
          simp at hc
          obtain ⟨h1, h2⟩ := hc
          subst h2
          exact List.mem_cons_of_mem _ (ih [] ram' _ hrec fi hfi)
    | Instr i0 =>
      unfold extract_ram_go at hc
      cases hrec : extract_ram_go t [] with
      | error e => simp [hrec] at hc
      | ok pr =>
        obtain ⟨ram', kept'⟩ := pr
        simp only [hrec] at hc
        simp at hc
        obtain ⟨h1, h2⟩ := hc
        subst h2
        rw [List.mem_append] at hfi
        rcases hfi with hfi | hfi
        · rw [List.mem_map] at hfi
          obtain ⟨y, hy, he⟩ := hfi
          cases he
        · rcases List.mem_cons.mp hfi with he | hfi'
          · simp [he]
          · exact List.mem_cons_of_mem _ (ih [] ram' _ hrec fi hfi')
    | Long n =>
      unfold extract_ram_go at hc
      cases hrec : extract_ram_go t [] with
      | error e => simp [hrec] at hc
      | ok pr =>
        obtain ⟨ram', kept'⟩ := pr
        simp only [hrec] at hc
        simp at hc
        obtain ⟨h1, h2⟩ := hc
        subst h2
        rw [List.mem_append] at hfi
        rcases hfi with hfi | hfi
        · rw [List.mem_map] at hfi
          obtain ⟨y, hy, he⟩ := hfi
          cases he
        · rcases List.mem_cons.mp hfi with he | hfi'
          · cases he
          · exact List.mem_cons_of_mem _ (ih [] ram' _ hrec fi hfi')
    | None =>
      unfold extract_ram_go at hc
      cases hrec : extract_ram_go t [] with
      | error e => simp [hrec] at hc
      | ok pr =>
        obtain ⟨ram', kept'⟩ := pr
        simp only [hrec] at hc
        simp at hc
        obtain ⟨h1, h2⟩ := hc
        subst h2
        rw [List.mem_append] at hfi
        rcases hfi with hfi | hfi
        · rw [List.mem_map] at hfi
          obtain ⟨y, hy, he⟩ := hfi
          cases he
        · rcases List.mem_cons.mp hfi with he | hfi'
          · cases he
          · exact List.mem_cons_of_mem _ (ih [] ram' _ hrec fi hfi')

/-- `collapse_long`'s rewrite either leaves a line unchanged or renames
the label of a `Ldr3`. -/
theorem replace_cases (a b : String) (x : ParsedLine) :
    replaceLdr3Label a b x = x
    ∨ ∃ rt, replaceLdr3Label a b x = .Instr ⟨.Ldr3, .RtLabel rt b⟩ := by
  cases x with
  | Instr fi =>
    obtain ⟨ins, args⟩ := fi
    cases args with
    | RtLabel rt l =>
      cases ins <;> first
        | (left; rfl)
        | (by_cases hl : (l == a) = true
           · right
             exact ⟨rt, by simp [replaceLdr3Label, hl]⟩
           · left
             simp [replaceLdr3Label, hl])
    | Immediate11 imm => cases ins <;> (left; rfl)
    | Immediate7W imm => cases ins <;> (left; rfl)
    | Immediate8S imm => cases ins <;> (left; rfl)
    | Label l => cases ins <;> (left; rfl)
    | RdImm8 rd imm => cases ins <;> (left; rfl)
    | RdRmImm5 rd rm imm => cases ins <;> (left; rfl)
    | RdRnImm0 rd rn => cases ins <;> (left; rfl)
    | RdRnImm3 rd rn imm => cases ins <;> (left; rfl)
    | RdRnRm rd rn rm => cases ins <;> (left; rfl)
    | RtSpImm8W rt imm => cases ins <;> (left; rfl)
    | RtRnImm5 rt rn imm => cases ins <;> (left; rfl)
    | TwoRegs r1 r2 => cases ins <;> (left; rfl)
  | Label l => left; rfl
  | String s => left; rfl
  | Long n => left; rfl
  | None => left; rfl

/-- The `collapse_long` rewrite preserves well-formedness. -/
theorem map_replace_wf (a b : String) (l : List ParsedLine)
    (h : ∀ fi, ParsedLine.Instr fi ∈ l → wellFormed fi = true) :
    ∀ fi, ParsedLine.Instr fi ∈ l.map (replaceLdr3Label a b) →
      wellFormed fi = true := by
  intro fi hfi
  rw [List.mem_map] at hfi
  obtain ⟨x, hx, hrep⟩ := hfi
  rcases replace_cases a b x with he | ⟨rt, he⟩
  · rw [he] at hrep
    subst hrep
    exact h fi hx
  · rw [he] at hrep
    cases hrep
    rfl

/-- One `collapse_long` iteration preserves well-formedness. -/
theorem collapse_step_wf (st : List ParsedLine × List Nat) (i : Nat)
    (h : ∀ fi, ParsedLine.Instr fi ∈ st.1 → wellFormed fi = true) :
    ∀ fi, ParsedLine.Instr fi ∈ (collapse_step st i).1 →
      wellFormed fi = true := by
  unfold collapse_step
  split
  · exact map_replace_wf _ _ _ h
  · exact h

/-- The `collapse_long` loop preserves well-formedness. -/
theorem foldl_collapse_wf (idxs : List Nat) :
    ∀ (st : List ParsedLine × List Nat),
    (∀ fi, ParsedLine.Instr fi ∈ st.1 → wellFormed fi = true) →
    ∀ fi, ParsedLine.Instr fi ∈ (idxs.foldl collapse_step st).1 →
      wellFormed fi = true := by
  induction idxs with
  | nil => intro st h; exact h
  | cons j t ih =>
    intro st h
    rw [List.foldl_cons]
    exact ih _ (collapse_step_wf st j h)

/-- Removing indices only drops elements. -/
theorem removeIdxsGo_mem :
    ∀ (l : List ParsedLine) (i : Nat) (idxs : List Nat) (x : ParsedLine),
    x ∈ removeIdxsGo i l idxs → x ∈ l := by
  intro l
  induction l with
  | nil => intro i idxs x hx; simp [removeIdxsGo] at hx
  | cons y t ih =>
    intro i idxs x hx
    unfold removeIdxsGo at hx
    by_cases hc : idxs.contains i
    · simp only [hc, if_true] at hx
      exact List.mem_cons_of_mem _ (ih _ _ _ hx)
    · simp only [hc, Bool.false_eq_true, if_false] at hx
      rcases List.mem_cons.mp hx with he | hx'
      · simp [he]
      · exact List.mem_cons_of_mem _ (ih _ _ _ hx')

/-- `collapse_long` preserves well-formedness of instruction lines. -/
theorem collapse_wf (l : List ParsedLine)
    (h : ∀ fi, ParsedLine.Instr fi ∈ l → wellFormed fi = true) :
    ∀ fi, ParsedLine.Instr fi ∈ collapse_long l → wellFormed fi = true := by
  intro fi hfi
  unfold collapse_long removeIdxs at hfi
  exact foldl_collapse_wf _ (l, []) h fi (removeIdxsGo_mem _ _ _ _ hfi)

/-- Members of `onlyInstrs` come from `Instr` lines. -/
theorem onlyInstrs_mem (l : List ParsedLine) (fi : FullInstr)
    (h : fi ∈ onlyInstrs l) : ParsedLine.Instr fi ∈ l := by
  unfold onlyInstrs at h
  rw [List.mem_filterMap] at h
  obtain ⟨a, ha, he⟩ := h
  cases a <;> simp at he
  subst he
  exact ha

/-- C5: every resolved (label-free) catalog-shaped instruction emits
exactly 16 bits — opcode bits then operand bits — and consequently the
ROM stream of `make_program` has length 16 times the number of
instructions, and both the ROM and the RAM streams have lengths divisible
by 16. -/
theorem c5_sixteen_bit_words :
    (∀ fi : FullInstr, wellFormed fi = true → labelFree fi = true →
      fi.to_binary.length = 16)
    ∧ (∀ (lines ram kept : List ParsedLine) (prog : Program),
        (∀ fi, ParsedLine.Instr fi ∈ lines → wellFormed fi = true) →
        extract_ram lines = .ok (ram, kept) →
        make_program lines = .ok prog →
        prog.instrs.length = 16 * (onlyInstrs (collapse_long kept)).length
        ∧ 16 ∣ prog.instrs.length ∧ 16 ∣ prog.ram.length) := by
  refine ⟨toBinary_len16, ?_⟩
  intro lines ram kept prog hwf hex hmk
  unfold make_program at hmk
  rw [hex] at hmk
  cases hpl : process_lines kept ram with
  | error e => simp only [hpl] at hmk; simp at hmk
  | ok pr =>
    obtain ⟨rom, ramS⟩ := pr
    simp only [hpl] at hmk
    simp at hmk
    subst hmk
    unfold process_lines at hpl
    cases hca : completeAll (calculate_rom_labels (collapse_long kept))
        (calculate_ram_labels ram 0 []) 0 (onlyInstrs (collapse_long kept)) with
    | error e => simp only [hca] at hpl; simp at hpl
    | ok outl =>
      simp only [hca] at hpl
      simp at hpl
      obtain ⟨h1, h2⟩ := hpl
      subst h1
      subst h2
      have hkept : ∀ fi, ParsedLine.Instr fi ∈ kept → wellFormed fi = true :=
        fun fi hfi => hwf fi (extract_keep_mem lines [] ram kept hex fi hfi)
      have hcoll := collapse_wf kept hkept
      have honly : ∀ i ∈ onlyInstrs (collapse_long kept), wellFormed i = true :=
        fun i hi => hcoll i (onlyInstrs_mem _ i hi)
      obtain ⟨hlen, hall⟩ := completeAll_ok _ _ _ 0 _ honly hca
      have hlens : ∀ i ∈ outl, i.to_binary.length = 16 :=
        fun i hi => toBinary_len16 i (hall i hi).1 (hall i hi).2
      refine ⟨?_, ?_, ?_⟩
      · rw [foldl_toBinary_len outl [] hlens]
        simp [hlen]
      · rw [foldl_toBinary_len outl [] hlens]
        simp
      · exact foldl_ram_dvd _ [] (by simp)

/-- Witness for C5 on the one-instruction program `lsrs r0, r1, #5` (the
`test_simple_program` vector of `logic.rs`). -/
theorem c5_sixteen_bit_words_witness :
    (Program.mk (bvLit [0,0,0,0,1,0,0,1,0,1,0,0,1,0,0,0]) []).instrs.length
        = 16 * (onlyInstrs (collapse_long
            [ParsedLine.Instr ⟨.Lsrs, .RdRmImm5 .R0 .R1 ⟨5⟩⟩])).length
    ∧ 16 ∣ (Program.mk (bvLit [0,0,0,0,1,0,0,1,0,1,0,0,1,0,0,0]) []).instrs.length
    ∧ 16 ∣ (Program.mk (bvLit [0,0,0,0,1,0,0,1,0,1,0,0,1,0,0,0]) []).ram.length :=
  c5_sixteen_bit_words.2
    [ParsedLine.Instr ⟨.Lsrs, .RdRmImm5 .R0 .R1 ⟨5⟩⟩] []
    [ParsedLine.Instr ⟨.Lsrs, .RdRmImm5 .R0 .R1 ⟨5⟩⟩]
    (Program.mk (bvLit [0,0,0,0,1,0,0,1,0,1,0,0,1,0,0,0]) [])
    (by intro fi hfi
        simp at hfi
        subst hfi
        rfl)
    rfl rfl
